import Mathlib

/-!
Shallow embedding of `src/read_makefile.py`: a recursive Makefile include
resolver (`parse_include_files`) feeding a heuristic analyzer
(`analyze_makefile`).  Strings are modelled through their character lists
(`String.data`); the Python regexes are hand-translated into character-list
scanners that follow the regex semantics (anchoring, greediness, first-match
behaviour) as used by the source.  The filesystem is an explicit finite map
from path strings to file contents, and the `print` warning / file-read side
effects are recorded in an explicit state record.  Recursion in the resolver
is modelled with an explicit fuel parameter (the Python recursion has no
fuel; the fuel-sufficiency theorem for claim C1 is exactly the termination
statement for the source).
-/

/-- Python `\s` on the characters that can actually occur in decoded text:
space, tab, newline, carriage return, vertical tab, form feed. -/
def pyWS (c : Char) : Bool :=
  c == ' ' || c == '\t' || c == '\n' || c == '\r' || c == '\x0b' || c == '\x0c'

/-- Character class `[A-Za-z0-9_]` (Python `\w` on ASCII), used both for
variable names and for the `\w` occurrences in the source regexes. -/
def isVarChar (c : Char) : Bool :=
  (('a' ≤ c && c ≤ 'z') || ('A' ≤ c && c ≤ 'Z') || ('0' ≤ c && c ≤ '9') || c == '_')

/-- Does `cs` start with `p` (literal character-by-character comparison)? -/
def startsWithL : List Char → List Char → Bool
  | _, [] => true
  | [], _ :: _ => false
  | c :: cs, p :: ps => c == p && startsWithL cs ps

/-- Does `cs` contain `pat` as a contiguous substring? -/
def hasSubL : List Char → List Char → Bool
  | [], pat => pat.isEmpty
  | c :: t, pat => startsWithL (c :: t) pat || hasSubL t pat

/-- ASCII lowercasing of a character list (models `re.IGNORECASE` by
comparing lowercased text against lowercased patterns). -/
def lowerL (cs : List Char) : List Char := cs.map Char.toLower

/-- Case-insensitive substring test on strings. -/
def containsCI (s pat : String) : Bool := hasSubL (lowerL s.data) (lowerL pat.data)

/-- Case-sensitive substring test on strings. -/
def containsStr (s pat : String) : Bool := hasSubL s.data pat.data

/-- Drop trailing characters satisfying `p`. -/
def dropEndWhile (p : Char → Bool) (cs : List Char) : List Char :=
  ((cs.reverse).dropWhile p).reverse

/-- Python `str.strip()` on a character list. -/
def stripCh (cs : List Char) : List Char :=
  dropEndWhile pyWS (cs.dropWhile pyWS)

/-- Split a character list at every occurrence of the character `sep`
(Python `str.split(sep)` semantics: `n` separators yield `n+1` pieces). -/
def splitOnCh (sep : Char) : List Char → List (List Char)
  | [] => [[]]
  | c :: rest =>
    if c == sep then [] :: splitOnCh sep rest
    else
      match splitOnCh sep rest with
      | l :: ls => (c :: l) :: ls
      | [] => [[c]]

/-- The lines of a text, as used by the `re.MULTILINE` anchored scans. -/
def splitLinesCh (cs : List Char) : List (List Char) := splitOnCh '\n' cs

/-! ### Path helpers: `os.path.dirname`, `os.path.isabs`, `os.path.join`,
`os.path.normpath` (posixpath variants, as used on the analysis host). -/

/-- Model of `os.path.isabs`. -/
def isAbsPath (p : String) : Bool := startsWithL p.data ['/']

/-- Model of `os.path.dirname`: everything up to the last slash, with
trailing slashes stripped unless the head is all slashes. -/
def dirname (p : String) : String :=
  match (p.data.reverse).findIdx? (fun c => c == '/') with
  | none => ""
  | some k =>
    let head := p.data.take (p.data.length - k)
    if head.all (fun c => c == '/') then String.mk head
    else String.mk (dropEndWhile (fun c => c == '/') head)

/-- Model of `os.path.join` for the two-argument form used by the source. -/
def joinPath (a b : String) : String :=
  if startsWithL b.data ['/'] then b
  else if a.data = [] then b
  else if a.data.getLast? = some '/' then a ++ b
  else a ++ "/" ++ b

/-- The component-normalisation loop of `posixpath.normpath`: empty and `.`
components are dropped, `..` pops the previous component except at the start
of a relative path or after another kept `..`. -/
def normComps (abs1 : Bool) : List (List Char) → List (List Char) → List (List Char)
  | acc, [] => acc
  | acc, c :: rest =>
    if c = [] ∨ c = ['.'] then normComps abs1 acc rest
    else if c ≠ ['.', '.'] ∨ (¬ abs1 ∧ acc = []) ∨ acc.getLast? = some ['.', '.'] then
      normComps abs1 (acc ++ [c]) rest
    else if acc ≠ [] then normComps abs1 acc.dropLast rest
    else normComps abs1 acc rest

/-- Join path components with `/`. -/
def joinComps : List (List Char) → List Char
  | [] => []
  | [c] => c
  | c :: rest => c ++ '/' :: joinComps rest

/-- Model of `posixpath.normpath`. -/
def normpath (p : String) : String :=
  if p.data = [] then "." else
  let abs1 := startsWithL p.data ['/']
  let dbl := startsWithL p.data ['/', '/'] && ! startsWithL p.data ['/', '/', '/']
  let comps := normComps abs1 [] (splitOnCh '/' p.data)
  let slashes : List Char := if abs1 then (if dbl then ['/', '/'] else ['/']) else []
  let res := slashes ++ joinComps comps
  if res = [] then "." else String.mk res

/-! ### Glob matching (`glob.glob`), for include targets containing `*`.
The source only enters the glob branch when the resolved path contains a
`*`; segments are matched with `*` standing for any run of characters of
the segment, and (as in `glob`) a wildcard does not match a name starting
with a dot unless the pattern itself starts with a dot. -/

/-- Fnmatch-style segment matching with `*` wildcards, fuelled structurally
(fuel at least `pat.length + s.length + 1` makes it total on the call). -/
def segMatchF : Nat → List Char → List Char → Bool
  | 0, _, _ => false
  | _ + 1, [], [] => true
  | f + 1, '*' :: ps, [] => segMatchF f ps []
  | f + 1, '*' :: ps, c :: cs => segMatchF f ps (c :: cs) || segMatchF f ('*' :: ps) cs
  | f + 1, p :: ps, c :: cs => p == c && segMatchF f ps cs
  | _ + 1, _ :: _, [] => false
  | _ + 1, [], _ :: _ => false

/-- One glob segment: hidden-file rule plus `*` matching. -/
def globSeg (pat name : List Char) : Bool :=
  if startsWithL name ['.'] && ! startsWithL pat ['.'] then false
  else segMatchF (pat.length + name.length + 1) pat name

/-- Does the file path `path` match glob pattern `pat` (segment-wise)? -/
def globPathMatch (pat path : String) : Bool :=
  let ps := splitOnCh '/' pat.data
  let qs := splitOnCh '/' path.data
  ps.length == qs.length && (ps.zip qs).all (fun pq => globSeg pq.1 pq.2)

/-! ### The assignment-line and include-line regexes. -/

/-- Value extraction for the assignment regexes
`=\s*(.+?)(?:\s*#.*)?$` followed by `.strip()`, applied to the rest of the
line after the `=` sign (`r` is known non-empty, or there is no match at
all).  The lazy group cuts just before the first `#` at index at least one,
with the whitespace run before that `#` absorbed by the optional comment
group; with no such `#` the group runs to the end of the line. -/
def assignValueCh (r : List Char) : List Char :=
  let r1 := r.dropWhile pyWS
  match r1 with
  | [] => []
  | h :: t =>
    match t.findIdx? (fun c => c == '#') with
    | none => dropEndWhile pyWS (h :: t)
    | some j => dropEndWhile pyWS ((h :: t).take (j + 1))

/-- Match of `^\s*NAME\s*[:\+]?=\s*(.+?)(?:\s*#.*)?$` against one line for a
fixed literal `NAME` (the regex built inside `expand_var`), giving the
stripped group.  `none` when the line is not an assignment to `NAME`. -/
def parseAssignFor (name : List Char) (line : List Char) : Option (List Char) :=
  let s := line.dropWhile pyWS
  if startsWithL s name then
    let t := (s.drop name.length).dropWhile pyWS
    let t2 := match t with
      | c :: rest => if c == ':' || c == '+' then rest else t
      | [] => t
    match t2 with
    | '=' :: r => if r = [] then none else some (assignValueCh r)
    | _ => none
  else none

/-- Match of the analyzer's generic assignment regex
`^\s*([A-Za-z0-9_]+)\s*[:\+]?=\s*(.+?)(?:\s*#.*)?$` against one line,
giving the identifier and stripped value. -/
def parseAnyAssign (line : List Char) : Option (List Char × List Char) :=
  let s := line.dropWhile pyWS
  let name := s.takeWhile isVarChar
  if name = [] then none
  else
    match parseAssignFor name line with
    | some v => some (name, v)
    | none => none

/-- Group extraction for `=\s*(.+?)(?:\s*#.*)?\$` against the WHOLE rest of
the content `r` (not just the rest of the line): the `\s*` runs match
newlines, so the value may start on a later line.  The greedy leading `\s*`
skips to the first non-whitespace character; the lazy group then lies on
that character's line and is cut and stripped exactly as in the per-line
case.  When `r` is all whitespace the group can still match a run of
non-newline whitespace (stripping to the empty value), and only an empty or
newlines-only tail fails to match. -/
def assignValueFull (r : List Char) : Option (List Char) :=
  match r.dropWhile pyWS with
  | [] => if r.any (fun c => !(c == '\n')) then some [] else none
  | w => some (assignValueCh (w.takeWhile (fun c => !(c == '\n'))))

/-- One anchored attempt of `^\s*NAME\s*[:\+]?=\s*(.+?)(?:\s*#.*)?\$` at a
line start: the suffix `s` begins at the anchor, and both `\s*` runs may
span newlines. -/
def searchAssignAt (name : List Char) (s : List Char) : Option (List Char) :=
  let s1 := s.dropWhile pyWS
  if startsWithL s1 name then
    let t := (s1.drop name.length).dropWhile pyWS
    let t2 := match t with
      | c :: rest => if c == ':' || c == '+' then rest else t
      | [] => t
    match t2 with
    | '=' :: r => assignValueFull r
    | _ => none
  else none

/-- The `re.search` walk over the MULTILINE `^` anchors: try the attempt at
the current line start, else move past the next newline; the earliest
successful anchor wins.  Fuel at least `s.length + 1` suffices, as each
step drops at least the newline. -/
def searchAssignF (name : List Char) : Nat → List Char → Option (List Char)
  | 0, _ => none
  | fuel + 1, s =>
    match searchAssignAt name s with
    | some v => some v
    | none =>
      match s.dropWhile (fun c => !(c == '\n')) with
      | _ :: s3 => searchAssignF name fuel s3
      | [] => none

/-- The assignment to `name` substituted by `expand_var`: the first match of
`var_pattern.search(content)`, scanning all line-start anchors top to
bottom, with whitespace runs free to cross newlines. -/
def lookupVarFirst (content : List Char) (name : List Char) : Option (List Char) :=
  searchAssignF name (content.length + 1) content

/-- Match of the include-directive regex `^\s*include\s+(.+)$` against one
line, giving the stripped target (`match.group(1).strip()`).  The `\s+`
requires one whitespace character after the keyword and `(.+)` at least one
further character of the line. -/
def lineIncludeTarget (line : List Char) : Option (List Char) :=
  let s := line.dropWhile pyWS
  if startsWithL s ['i', 'n', 'c', 'l', 'u', 'd', 'e'] then
    let r := s.drop 7
    match r with
    | c1 :: _ :: _ => if pyWS c1 then some (stripCh r) else none
    | _ => none
  else none

/-- All include targets of a text, in order (the
`include_pattern.finditer(content)` loop). -/
def includeTargets (content : String) : List String :=
  (splitLinesCh content.data).filterMap (fun l => (lineIncludeTarget l).map String.mk)

/-! ### Variable expansion inside include targets:
`var_pattern = \$[\({]([A-Za-z0-9_]+)[\)}]` with `var_pattern.sub(expand_var, ...)`.
A found variable is replaced by its first assignment in the current content;
an unknown variable keeps the matched text.  Scanning is left to right and
non-overlapping, with failed match attempts advancing one character. -/

/-- Fuelled substitution scanner over the target; fuel at least the length
of the scanned list makes it run to completion. -/
def substAuxF (content : List Char) : Nat → List Char → List Char
  | 0, cs => cs
  | _ + 1, [] => []
  | f + 1, '$' :: rest =>
    (match rest with
     | b :: rest2 =>
       if b == '(' || b == '{' then
         let name := rest2.takeWhile isVarChar
         let r3 := rest2.drop name.length
         match r3 with
         | close :: rest4 =>
           if (close == ')' || close == '}') && name ≠ [] then
             match lookupVarFirst content name with
             | some v => v ++ substAuxF content f rest4
             | none => '$' :: b :: (name ++ close :: substAuxF content f rest4)
           else '$' :: substAuxF content f rest
         | [] => '$' :: substAuxF content f rest
       else '$' :: substAuxF content f rest
     | [] => ['$'])
  | f + 1, c :: rest => c :: substAuxF content f rest

/-- Variable expansion of an include target against a content text
(the `var_pattern.sub(expand_var, include_path)` step). -/
def substVars (content : String) (target : String) : String :=
  String.mk (substAuxF content.data target.data.length target.data)

/-! ### The filesystem model and the inclusion resolver. -/

/-- A finite filesystem: the files that exist, each with its decoded text
content, listed in the enumeration order the host filesystem would use. -/
structure FileSystem where
  files : List (String × String)
deriving DecidableEq

/-- Model of `os.path.exists`. -/
def FileSystem.pathExists (fs : FileSystem) (p : String) : Bool :=
  fs.files.any (fun e => e.1 == p)

/-- Model of `open(p).read()` for an existing file. -/
def FileSystem.readFile (fs : FileSystem) (p : String) : String :=
  match fs.files.find? (fun e => e.1 == p) with
  | some e => e.2
  | none => ""

/-- The paths of the filesystem, in enumeration order. -/
def FileSystem.listing (fs : FileSystem) : List String := fs.files.map (fun e => e.1)

/-- Model of `glob.glob`: the existing paths matching the pattern, in
filesystem enumeration order. -/
def globMatches (fs : FileSystem) (pat : String) : List String :=
  fs.listing.filter (fun p => globPathMatch pat p)

/-- The warning printed for a missing include target. -/
def missingWarning (p : String) : String :=
  "警告: ファイル " ++ p ++ " が見つかりません"

/-- The observable state threaded through the resolver: the
`parsed_files` visited set, the paths actually opened and read, and the
warnings printed for missing files. -/
structure ResolveState where
  visited : List String
  reads : List String
  warnings : List String
deriving DecidableEq

/-- Fold of the recursive resolver over a list of concrete paths (a single
resolved target, or the glob expansion of a wildcard target), appending each
recursively obtained text to the accumulated content. -/
def processPending (recur : String → ResolveState → Option (String × ResolveState)) :
    List String → String → ResolveState → Option (String × ResolveState)
  | [], content, st => some (content, st)
  | p :: ps, content, st =>
    match recur p st with
    | none => none
    | some (txt, st2) => processPending recur ps (content ++ txt) st2

/-- Steps 6-8 for one include target: variable expansion against the
accumulated content, resolution of relative targets against the base
directory, and wildcard expansion; the resulting list of concrete paths is
recursed into. -/
def targetPaths (fs : FileSystem) (baseDir : String) (content : String) (t : String) : List String :=
  let expanded := substVars content t
  let resolved := if isAbsPath expanded then expanded
    else normpath (joinPath baseDir expanded)
  if resolved.data.contains '*' then globMatches fs resolved else [resolved]

/-- The include-directive loop of `parse_include_files`: for each target (in
order of appearance in the original file content) expand variables against
the accumulated content, resolve relative targets against the base
directory, expand wildcards, and recurse, appending all obtained text. -/
def processTargets (fs : FileSystem)
    (recur : String → ResolveState → Option (String × ResolveState)) (baseDir : String) :
    List String → String → ResolveState → Option (String × ResolveState)
  | [], content, st => some (content, st)
  | t :: ts, content, st =>
    match processPending recur (targetPaths fs baseDir content t) content st with
    | none => none
    | some (content2, st2) => processTargets fs recur baseDir ts content2 st2

/-- Fuelled model of `parse_include_files(makefile_path, parsed_files)`.
`none` means the fuel ran out (never reached for sufficient fuel, by
`parse_include_files_total`); `some (text, st)` gives the returned corpus
text and the final observable state. -/
def resolveFileFuel (fs : FileSystem) : Nat → String → ResolveState → Option (String × ResolveState)
  | 0, _, _ => none
  | fuel + 1, path, st =>
    if st.visited.contains path then some ("", st)
    else
      let st1 : ResolveState := { st with visited := path :: st.visited }
      if fs.pathExists path then
        let content := fs.readFile path
        let st2 : ResolveState := { st1 with reads := st1.reads ++ [path] }
        processTargets fs (resolveFileFuel fs fuel) (dirname path) (includeTargets content) content st2
      else
        some ("", { st1 with warnings := st1.warnings ++ [missingWarning path] })

/-- Top-level `parse_include_files(makefile_path)` with a fresh visited set;
the fuel `fs.files.length + 1` is sufficient (`parse_include_files_total`). -/
def parse_include_files (fs : FileSystem) (path : String) : Option (String × ResolveState) :=
  resolveFileFuel fs (fs.files.length + 1) path ⟨[], [], []⟩

example : parse_include_files ⟨[("Makefile", "hello\n")]⟩ "Makefile" =
    some ("hello\n", ⟨["Makefile"], ["Makefile"], []⟩) := by decide

example : parse_include_files ⟨[("Makefile", "include a.mk\n"), ("a.mk", "A")]⟩ "Makefile" =
    some ("include a.mk\nA", ⟨["a.mk", "Makefile"], ["Makefile", "a.mk"], []⟩) := by decide

/-! ### The heuristic analyzer (`analyze_makefile`), step by step. -/

/-- All assignments of the corpus in scan order (the analyzer's
`var_pattern.finditer(content)` loop); the Python dict built from them keeps
the last assignment of each key. -/
def extractAssignments (content : List Char) : List (List Char × List Char) :=
  (splitLinesCh content).filterMap parseAnyAssign

/-- Lookup in the analyzer's `variables` dict: the value of the last
assignment to `name`, if any. -/
def lookupLast (assigns : List (List Char × List Char)) (name : List Char) : Option (List Char) :=
  (assigns.reverse).findSome? (fun a => if a.1 = name then some a.2 else none)

/-- The conventional source-directory variable names probed directly. -/
def srcKeys : List String := ["SRCDIR", "SRC_DIR", "SOURCE_DIR", "SOURCES_DIR"]

/-! #### Language detection:
`cpp_files = re.search(r'\.(cpp|cxx|cc|hpp|hxx)(?:\s|$)', content)` and
`c_files = re.search(r'(?<!\.)\.c(?:\s|$)', content)`. -/

/-- After an extension match the next character must be whitespace, or the
text must end (`(?:\s|$)`). -/
def extAfterOk : List Char → Bool
  | [] => true
  | c :: _ => pyWS c

/-- One alternative `.EXT` followed by whitespace or end, tried at the
position right after a dot. -/
def extHere (rest : List Char) (ext : List Char) : Bool :=
  startsWithL rest ext && extAfterOk (rest.drop ext.length)

/-- Does a C++ extension token occur anywhere in the text? -/
def cppSearch : List Char → Bool
  | [] => false
  | '.' :: rest =>
    extHere rest ['c', 'p', 'p'] || extHere rest ['c', 'x', 'x'] || extHere rest ['c', 'c'] ||
      extHere rest ['h', 'p', 'p'] || extHere rest ['h', 'x', 'x'] || cppSearch rest
  | _ :: rest => cppSearch rest

/-- Does a bare `.c` token (not preceded by a dot, followed by whitespace or
end) occur anywhere?  The boolean argument records whether the previous
character was a dot (the `(?<!\.)` lookbehind). -/
def cSearchAux : Bool → List Char → Bool
  | prevDot, '.' :: rest =>
    (!prevDot && (match rest with
      | 'c' :: rest2 => extAfterOk rest2
      | _ => false))
    || cSearchAux true rest
  | _, _ :: rest => cSearchAux false rest
  | _, [] => false

/-- The language classification of the corpus. -/
def languageOf (content : List Char) : Option String :=
  let cpp := cppSearch content
  let c := cSearchAux false content
  if cpp && c then some "Both"
  else if cpp then some "C++"
  else if c then some "C"
  else none

/-! #### Include-directory detection:
`finditer(r'-I\s*([^\s]+)', content)` and
`finditer(r'INCLUDE\w*\s*[:\+]?=\s*([^\s#]+)', content)`;
both scanned over the whole corpus, unanchored, non-overlapping, with a
failed attempt advancing one character.  Fuel at least the length of the
scanned list makes the scanners run to completion. -/

/-- Scanner for `-I\s*([^\s]+)`, collecting each stripped group. -/
def extractDashIF : Nat → List Char → List String
  | 0, _ => []
  | _ + 1, [] => []
  | _ + 1, [_] => []
  | f + 1, c1 :: c2 :: rest =>
    if c1 == '-' && c2 == 'I' then
      let afterWs := rest.dropWhile pyWS
      let tok := afterWs.takeWhile (fun c => !(pyWS c))
      if tok = [] then extractDashIF f (c2 :: rest)
      else String.mk (stripCh tok) :: extractDashIF f (afterWs.drop tok.length)
    else extractDashIF f (c2 :: rest)

/-- Scanner for `INCLUDE\w*\s*[:\+]?=\s*([^\s#]+)`, collecting each
stripped group. -/
def extractIncludeVarF : Nat → List Char → List String
  | 0, _ => []
  | _ + 1, [] => []
  | f + 1, c :: rest =>
    if startsWithL (c :: rest) ['I', 'N', 'C', 'L', 'U', 'D', 'E'] then
      let r1 := ((c :: rest).drop 7).dropWhile isVarChar
      let r2 := r1.dropWhile pyWS
      let r3 := match r2 with
        | x :: xs => if x == ':' || x == '+' then xs else r2
        | [] => r2
      match r3 with
      | '=' :: r4 =>
        let r5 := r4.dropWhile pyWS
        let tok := r5.takeWhile (fun ch => !(pyWS ch) && ch ≠ '#')
        if tok = [] then extractIncludeVarF f rest
        else String.mk (stripCh tok) :: extractIncludeVarF f (r5.drop tok.length)
      | _ => extractIncludeVarF f rest
    else extractIncludeVarF f rest

/-- The `-I` flag extractions of the corpus. -/
def extractDashI (cs : List Char) : List String := extractDashIF cs.length cs

/-- The `INCLUDE...=` variable extractions of the corpus. -/
def extractIncludeVar (cs : List Char) : List String := extractIncludeVarF cs.length cs

/-! #### Threading detection: seven indicators, each a case-insensitive
`re.search`; the report flag is their disjunction.  The six literal
indicators are substring tests; the seventh is the include-of-a-threading-
header pattern `#include\s*[<"]thread[">]`. -/

/-- Attempt of the header pattern at the current position of the (already
lowercased) text. -/
def threadHeaderHere (cs : List Char) : Bool :=
  startsWithL cs ['#', 'i', 'n', 'c', 'l', 'u', 'd', 'e'] &&
    (match (cs.drop 8).dropWhile pyWS with
     | b :: r2 =>
       (b == '<' || b == '"') && startsWithL r2 ['t', 'h', 'r', 'e', 'a', 'd'] &&
         (match r2.drop 6 with
          | e :: _ => e == '>' || e == '"'
          | [] => false)
     | [] => false)

/-- Search of the header pattern over the whole lowercased text. -/
def threadHeaderSearch : List Char → Bool
  | [] => false
  | c :: t => threadHeaderHere (c :: t) || threadHeaderSearch t

/-- The `thread_indicators` loop: true once any indicator matches. -/
def hasMultithreadingB (content : String) : Bool :=
  containsCI content "-lpthread" || containsCI content "-pthread" ||
    containsCI content "thread" || containsCI content "pthread" ||
    containsCI content "std::thread" || containsCI content "boost::thread" ||
    threadHeaderSearch (lowerL content.data)

/-! #### Source-directory pattern inference (`src_patterns`).  Each of the
four patterns is anchored at a line start; the matched prefix of the line
(`match.group(0)`) is then searched with `([^\s:=]+\/)[^\/]*\.[ch]` and the
group-1 directory prefix is recorded.  `(.+\/)*` accepts exactly the empty
string or any run ending in a slash, so a pattern tail can begin either
right after the whitespace run following the `=`/`:` or right after any
slash; greedy backtracking picks the rightmost workable start, and inside
the `[\w\.]+\.[ch]` tails the longest workable word-and-dot run. -/

/-- Character class `[\w\.]`. -/
def wordDot (c : Char) : Bool := isVarChar c || c == '.'

/-- Tail `\*\.[ch]pp` / `\*\.[ch]` at a fixed position: the matched length,
if any (`withPP` distinguishes pattern 1 from pattern 2). -/
def starTailLen (withPP : Bool) (xs : List Char) : Option Nat :=
  match xs with
  | '*' :: '.' :: e :: rest =>
    if e == 'c' || e == 'h' then
      if withPP then
        if startsWithL rest ['p', 'p'] then some 5 else none
      else some 3
    else none
  | _ => none

/-- Tail `[\w\.]+\.[ch]pp` / `[\w\.]+\.[ch]` at a fixed position: the
matched length for the greediest workable split, if any. -/
def wordDotTailLen (withPP : Bool) (xs : List Char) : Option Nat :=
  let run := xs.takeWhile wordDot
  let ok := fun k =>
    xs.get? k = some '.' &&
      (match xs.get? (k + 1) with
       | some e =>
         (e == 'c' || e == 'h') &&
           (!withPP || startsWithL (xs.drop (k + 2)) ['p', 'p'])
       | none => false)
  match ((List.range run.length).reverse).find? (fun k => decide (1 ≤ k) && ok k) with
  | some k => some (k + (if withPP then 4 else 2))
  | none => none

/-- The workable start positions for the `(.+\/)*` group inside the rest of
the line `xs`: the end of the leading whitespace run (empty group after the
greedy `\s*`), or any position right after a slash. -/
def groupStartOk (xs : List Char) (i : Nat) : Bool :=
  (i == (xs.takeWhile pyWS).length) || (decide (1 ≤ i) && xs.get? (i - 1) = some '/')

/-- Matched-prefix length of one `src_patterns` regex against a line:
leading whitespace, an identifier, optional whitespace, the separator
(`=` for patterns 1-2, `:` for patterns 3-4), then `\s*(.+\/)*` and the
pattern tail.  `none` when the line does not match. -/
def srcPatternMatchLen (sep : Char) (tail : List Char → Option Nat) (line : List Char) : Option Nat :=
  let w0 := (line.takeWhile pyWS).length
  let s1 := line.drop w0
  let name := s1.takeWhile isVarChar
  if name = [] then none
  else
    let s2 := s1.drop name.length
    let w2 := (s2.takeWhile pyWS).length
    match s2.drop w2 with
    | c :: xs =>
      if c == sep then
        let found := ((List.range (xs.length + 1)).reverse).findSome? (fun i =>
          if groupStartOk xs i then
            match tail (xs.drop i) with
            | some e => some (i + e)
            | none => none
          else none)
        match found with
        | some m => some (w0 + name.length + w2 + 1 + m)
        | none => none
      else none
    | [] => none

/-- Search for a `.` followed by `c` or `h` inside a slash-free run (the
`[^\/]*\.[ch]` part of the inner directory regex). -/
def dotCH : List Char → Bool
  | '.' :: e :: rest => (e == 'c' || e == 'h') || dotCH (e :: rest)
  | _ :: rest => dotCH rest
  | [] => false

/-- Attempt of `([^\s:=]+\/)[^\/]*\.[ch]` at the current position: the
group-1 text for the greediest workable slash split, if any. -/
def dirMatchHere (xs : List Char) : Option (List Char) :=
  let run := xs.takeWhile (fun c => !(pyWS c) && c ≠ ':' && c ≠ '=')
  (((List.range run.length).reverse).find? (fun i =>
      decide (1 ≤ i) && run.get? i = some '/' &&
        dotCH ((xs.drop (i + 1)).takeWhile (fun c => c ≠ '/')))).map
    (fun i => xs.take (i + 1))

/-- `re.search` of the inner directory regex over a matched prefix:
leftmost position wins. -/
def dirMatchSearch : List Char → Option (List Char)
  | [] => none
  | c :: rest =>
    match dirMatchHere (c :: rest) with
    | some g => some g
    | none => dirMatchSearch rest

/-- The four `src_patterns`, as matched-prefix functions in source order. -/
def srcPatterns : List (List Char → Option Nat) :=
  [srcPatternMatchLen '=' (starTailLen true),
   srcPatternMatchLen '=' (starTailLen false),
   srcPatternMatchLen ':' (wordDotTailLen true),
   srcPatternMatchLen ':' (wordDotTailLen false)]

/-- The directories inferred from the pattern scan: for each pattern and
each matching line, the group-1 of the inner directory regex applied to the
matched prefix. -/
def srcPatternDirs (content : List Char) : List String :=
  (srcPatterns.map (fun pm =>
    (splitLinesCh content).filterMap (fun l =>
      match pm l with
      | some n => (dirMatchSearch (l.take n)).map String.mk
      | none => none))).flatten

/-! #### The analysis report. -/

/-- The `analysis` dict returned by `analyze_makefile`; the Python sets are
modelled as lists, with membership as the set-theoretic reading. -/
structure Analysis where
  source_directories : List String
  language : Option String
  include_directories : List String
  has_multithreading : Bool
  included_files : List String
deriving DecidableEq

/-- The pattern-scanning passes of `analyze_makefile` over an already
flattened corpus (everything after the `parse_include_files` call). -/
def analyzeContent (content : String) : Analysis :=
  let cs := content.data
  let assigns := extractAssignments cs
  let direct := srcKeys.filterMap (fun k => (lookupLast assigns k.data).map String.mk)
  { source_directories := direct ++ srcPatternDirs cs
    language := languageOf cs
    include_directories := extractDashI cs ++ extractIncludeVar cs
    has_multithreading := hasMultithreadingB content
    included_files := includeTargets content }

/-- Model of `analyze_makefile(makefile_path)`: resolve the corpus, then
analyze it (`none` only on resolver fuel exhaustion, which never happens by
`parse_include_files_total`). -/
def analyze_makefile (fs : FileSystem) (path : String) : Option Analysis :=
  (parse_include_files fs path).map (fun r => analyzeContent r.1)

example : (analyzeContent "foo.cpp").language = some "C++" := by decide
example : (analyzeContent "CFLAGS = -Iinclude/common").include_directories = ["include/common"] := by decide
example : (analyzeContent "INCLUDE_DIRS = /usr/local/include").include_directories = ["/usr/local/include"] := by decide
example : (analyzeContent "OBJS: src/main.cpp").source_directories = ["src/", "src/"] := by decide
example : (analyzeContent "LDFLAGS = -pthread").has_multithreading = true := by decide

/-! ### Concrete scenarios used by the claims. -/

/-- The claim C2 root file content. -/
def contentC2 : String := "SRCDIR = src\nmain.o: src/main.cpp src/util.h\n-Ivendor/include\n"

/-- The claim C2 filesystem: just the root file. -/
def fsC2 : FileSystem := ⟨[("Makefile", contentC2)]⟩

/-- The claim C2 report. -/
def repC2 : Analysis := analyzeContent contentC2

/-- The claim C3 root file content: two assignments to `A`, then an include
of `$(A)`. -/
def contentC3 : String := "A = one\nA = two\ninclude $(A)\n"

/-- The claim C3 filesystem: both candidate include targets exist. -/
def fsC3 : FileSystem := ⟨[("Makefile", contentC3), ("one", "ONE"), ("two", "TWO")]⟩

/-- The claim C5 filesystem: the root includes a missing file and then an
existing sibling. -/
def fsC5 : FileSystem := ⟨[("Makefile", "include missing.mk\ninclude real.mk\n"), ("real.mk", "REAL")]⟩

/-- The claim C6 filesystem: a root in a subdirectory assigning `SRCDIR`
and including `$(SRCDIR)/extra.mk`. -/
def fsC6 : FileSystem :=
  ⟨[("dir/Makefile", "SRCDIR = src\ninclude $(SRCDIR)/extra.mk\n"), ("dir/src/extra.mk", "EXTRA")]⟩

/-- The claim C9 filesystem, first enumeration order of the two glob
matches. -/
def fsC9a : FileSystem := ⟨[("Makefile", "include mk/*.mk\n"), ("mk/a.mk", "AAA\n"), ("mk/b.mk", "BBB\n")]⟩

/-- The claim C9 filesystem, opposite enumeration order. -/
def fsC9b : FileSystem := ⟨[("Makefile", "include mk/*.mk\n"), ("mk/b.mk", "BBB\n"), ("mk/a.mk", "AAA\n")]⟩

/-- Claim C2, counterexample: on the claimed scenario the report's
source-directory set is exactly the raw variable value `src` — the claimed
member `src/` (with trailing slash) is absent, because the rule-line
patterns `^\s*[A-Za-z0-9_]+\s*:...` cannot match the target `main.o:`
(its dot is outside the identifier class), so no directory prefix is ever
extracted, and the direct `SRCDIR` lookup adds the value verbatim. -/
theorem analyze_scenario_no_slash_dir :
    analyze_makefile fsC2 "Makefile" = some repC2 ∧ ¬ ("src/" ∈ repC2.source_directories) := by
  constructor
  · rfl
  · decide

/-- Claim C2, amended: same scenario, with the expected source directory
being the raw value `src` (no trailing slash); language, include
directories and the threading flag are as claimed. -/
theorem analyze_scenario_amended :
    analyze_makefile fsC2 "Makefile" = some repC2 ∧
      "src" ∈ repC2.source_directories ∧
      repC2.language = some "C++" ∧
      "vendor/include" ∈ repC2.include_directories ∧
      repC2.has_multithreading = false := by
  refine ⟨rfl, ?_, ?_, ?_, ?_⟩ <;> decide

/-- Claim C3, counterexample: with two assignments `A = one` and `A = two`
in the scanned content, the resolver substitutes `$(A)` with the value of
the FIRST assignment (`expand_var` uses `re.search`, whose first match
wins), so the resolved include reads the file `one` and never `two` —
contradicting the claimed last-write-wins substitution. -/
theorem expand_var_first_assignment_counterexample :
    substVars contentC3 "$(A)" = "one" ∧
      parse_include_files fsC3 "Makefile" =
        some (contentC3 ++ "ONE", ⟨["one", "Makefile"], ["Makefile", "one"], []⟩) ∧
      ¬ ("two" ∈ ["Makefile", "one"]) := by
  refine ⟨?_, ?_, ?_⟩ <;> decide

/-- Claim C4: language detection is a pure function of the corpus
(re-analysis yields the same value), and on the four claimed corpus shapes
it yields C++, C, Both and the absent value respectively. -/
theorem language_detection_deterministic_cases :
    (∀ corpus : String, (analyzeContent corpus).language = (analyzeContent corpus).language) ∧
      (analyzeContent "foo.cpp").language = some "C++" ∧
      (analyzeContent "bar.c").language = some "C" ∧
      (analyzeContent "foo.cpp bar.c").language = some "Both" ∧
      (analyzeContent "hello world").language = none := by
  refine ⟨fun _ => rfl, ?_, ?_, ?_, ?_⟩ <;> decide

/-- Claim C6: with `SRCDIR = src` and `include $(SRCDIR)/extra.mk` in
`dir/Makefile`, the resolver substitutes the variable and reads
`dir/src/extra.mk` — the target resolved relative to the directory of the
including file — so that file's content reaches the corpus. -/
theorem variable_substitution_resolves_relative :
    parse_include_files fsC6 "dir/Makefile" =
      some ("SRCDIR = src\ninclude $(SRCDIR)/extra.mk\n" ++ "EXTRA",
        ⟨["dir/src/extra.mk", "dir/Makefile"], ["dir/Makefile", "dir/src/extra.mk"], []⟩) ∧
      "dir/src/extra.mk" ∈ ["dir/Makefile", "dir/src/extra.mk"] := by
  refine ⟨?_, ?_⟩ <;> decide

/-- Claim C9: an include directive `mk/*.mk` matching exactly two on-disk
files makes the resolver recurse into both, and the corpus contains both
files' content under either filesystem enumeration order. -/
theorem wildcard_include_both_orders :
    (parse_include_files fsC9a "Makefile").map (fun r =>
        containsStr r.1 "AAA" && containsStr r.1 "BBB" &&
          r.2.reads.contains "mk/a.mk" && r.2.reads.contains "mk/b.mk") = some true ∧
      (parse_include_files fsC9b "Makefile").map (fun r =>
        containsStr r.1 "AAA" && containsStr r.1 "BBB" &&
          r.2.reads.contains "mk/a.mk" && r.2.reads.contains "mk/b.mk") = some true := by
  refine ⟨?_, ?_⟩ <;> decide

/-- Claim C5: a missing include target never aborts resolution — for any
filesystem, fuel, and state, resolving a not-yet-visited missing path
returns normally with empty text, records a warning naming the path, and
reads nothing; and in a concrete scenario the sibling include after the
missing one is still resolved into the corpus. -/
theorem missing_include_warns_and_continues :
    (∀ (fs : FileSystem) (fuel : Nat) (path : String) (st : ResolveState),
        st.visited.contains path = false → fs.pathExists path = false →
        resolveFileFuel fs (fuel + 1) path st =
          some ("", { st with visited := path :: st.visited,
                              warnings := st.warnings ++ [missingWarning path] })) ∧
      parse_include_files fsC5 "Makefile" =
        some ("include missing.mk\ninclude real.mk\n" ++ "" ++ "REAL",
          ⟨["real.mk", "missing.mk", "Makefile"], ["Makefile", "real.mk"],
            [missingWarning "missing.mk"]⟩) := by
  constructor
  · intro fs fuel path st h1 h2
    have h3 : ¬ path ∈ st.visited := by simpa using h1
    simp [resolveFileFuel, h2, h3]
  · decide

/-- Witness for the universal part of claim C5, at a concrete missing
path. -/
theorem missing_include_warns_and_continues_witness :
    resolveFileFuel fsC5 1 "missing.mk" ⟨[], [], []⟩ =
      some ("", ⟨["missing.mk"], [], [missingWarning "missing.mk"]⟩) :=
  missing_include_warns_and_continues.1 fsC5 0 "missing.mk" ⟨[], [], []⟩ (by decide) (by decide)
/-! ### Termination and single-read machinery for claim C1. -/

theorem containsFalse {l : List String} {a : String} : l.contains a = false ↔ ¬ a ∈ l := by
  simp [List.contains]

theorem containsTrue {l : List String} {a : String} : l.contains a = true ↔ a ∈ l := by
  simp [List.contains]

/-- Number of existing files not yet visited: the measure that shrinks at
every recursive descent of the resolver. -/
def unvisitedCount (fs : FileSystem) (st : ResolveState) : Nat :=
  (fs.listing.filter (fun q => !(st.visited.contains q))).length

/-- The visited set only grows along the resolver. -/
def ExtVisited (st st2 : ResolveState) : Prop := ∀ x, x ∈ st.visited → x ∈ st2.visited

/-- The reads list never repeats a path and stays inside the visited set. -/
def ReadsInv (st : ResolveState) : Prop := st.reads.Nodup ∧ ∀ p ∈ st.reads, p ∈ st.visited

theorem extVisited_refl (st : ResolveState) : ExtVisited st st := fun _ h => h

theorem extVisited_trans {a b c : ResolveState} (h1 : ExtVisited a b) (h2 : ExtVisited b c) :
    ExtVisited a c := fun x hx => h2 x (h1 x hx)

theorem filterLenMono {α : Type} (p q : α → Bool) (h : ∀ a, q a = true → p a = true) :
    ∀ l : List α, (l.filter q).length ≤ (l.filter p).length := by
  intro l
  induction l with
  | nil => simp
  | cons a t ih =>
    by_cases hq : q a
    · have hp := h a hq
      simp only [List.filter_cons, hq, hp, if_true, List.length_cons]
      omega
    · simp only [Bool.not_eq_true] at hq
      by_cases hp : p a
      · simp only [List.filter_cons, hq, hp, if_true, if_false, Bool.false_eq_true,
          List.length_cons]
        omega
      · simp only [Bool.not_eq_true] at hp
        simp only [List.filter_cons, hq, hp, if_false, Bool.false_eq_true]
        exact ih

theorem extVisited_unvisited_le {fs : FileSystem} {st st2 : ResolveState}
    (h : ExtVisited st st2) : unvisitedCount fs st2 ≤ unvisitedCount fs st := by
  apply filterLenMono
  intro a ha
  rw [Bool.not_eq_true', containsFalse] at ha ⊢
  exact fun hmem => ha (h a hmem)

theorem filtConsLt (path : String) (vis : List String) (h2 : ¬ path ∈ vis) :
    ∀ l : List String, path ∈ l →
      (l.filter (fun q => !((path :: vis).contains q))).length <
        (l.filter (fun q => !(vis.contains q))).length := by
  intro l
  induction l with
  | nil => intro h; cases h
  | cons a t ih =>
    intro hmem
    have hle := filterLenMono (fun q => !(vis.contains q)) (fun q => !((path :: vis).contains q))
      (by
        intro x hx
        rw [Bool.not_eq_true', containsFalse] at hx ⊢
        intro hv
        exact hx (List.mem_cons_of_mem _ hv)) t
    by_cases hap : a = path
    · subst hap
      have hnew : (!((a :: vis).contains a)) = false := by
        rw [Bool.not_eq_false', containsTrue]
        exact List.mem_cons_self a vis
      have hold : (!(vis.contains a)) = true := by
        rw [Bool.not_eq_true', containsFalse]
        exact h2
      simp only [List.filter_cons, hnew, hold, if_true, if_false, Bool.false_eq_true,
        List.length_cons]
      omega
    · have hmem2 : path ∈ t := by
        cases hmem with
        | head => exact absurd rfl hap
        | tail _ h => exact h
      have hstrict := ih hmem2
      by_cases hv : a ∈ vis
      · have hnew : (!((path :: vis).contains a)) = false := by
          rw [Bool.not_eq_false', containsTrue]
          exact List.mem_cons_of_mem _ hv
        have hold : (!(vis.contains a)) = false := by
          rw [Bool.not_eq_false', containsTrue]
          exact hv
        simp only [List.filter_cons, hnew, hold, if_true, if_false, Bool.false_eq_true]
        omega
      · have hnew : (!((path :: vis).contains a)) = true := by
          rw [Bool.not_eq_true', containsFalse]
          intro hc
          cases hc with
          | head => exact hap rfl
          | tail _ h => exact hv h
        have hold : (!(vis.contains a)) = true := by
          rw [Bool.not_eq_true', containsFalse]
          exact hv
        simp only [List.filter_cons, hnew, hold, if_true, if_false, Bool.false_eq_true,
          List.length_cons]
        omega

theorem unvisitedCons {fs : FileSystem} {st : ResolveState} {path : String}
    (hex : fs.pathExists path = true) (hnv : ¬ path ∈ st.visited) :
    unvisitedCount fs { st with visited := path :: st.visited } < unvisitedCount fs st := by
  have hmem : path ∈ fs.listing := by
    simp only [FileSystem.pathExists, List.any_eq_true, beq_iff_eq] at hex
    obtain ⟨e, he, heq⟩ := hex
    simp only [FileSystem.listing, List.mem_map]
    exact ⟨e, he, heq⟩
  exact filtConsLt path st.visited hnv fs.listing hmem
theorem processPending_ext
    (recur : String → ResolveState → Option (String × ResolveState))
    (H : ∀ p st r, recur p st = some r → ExtVisited st r.2) :
    ∀ (ps : List String) (content : String) (st : ResolveState) (r : String × ResolveState),
      processPending recur ps content st = some r → ExtVisited st r.2 := by
  intro ps
  induction ps with
  | nil =>
    intro content st r h
    simp only [processPending, Option.some.injEq] at h
    rw [← h]
    exact extVisited_refl st
  | cons p ps ih =>
    intro content st r h
    cases hr : recur p st with
    | none => rw [processPending, hr] at h; cases h
    | some r2 =>
      obtain ⟨txt, st2⟩ := r2
      rw [processPending, hr] at h
      exact extVisited_trans (H p st (txt, st2) hr) (ih _ _ _ h)

theorem processTargets_ext (fs : FileSystem)
    (recur : String → ResolveState → Option (String × ResolveState)) (baseDir : String)
    (H : ∀ p st r, recur p st = some r → ExtVisited st r.2) :
    ∀ (ts : List String) (content : String) (st : ResolveState) (r : String × ResolveState),
      processTargets fs recur baseDir ts content st = some r → ExtVisited st r.2 := by
  intro ts
  induction ts with
  | nil =>
    intro content st r h
    simp only [processTargets, Option.some.injEq] at h
    rw [← h]
    exact extVisited_refl st
  | cons t ts ih =>
    intro content st r h
    cases hp : processPending recur (targetPaths fs baseDir content t) content st with
    | none => rw [processTargets, hp] at h; cases h
    | some r2 =>
      obtain ⟨c2, st2⟩ := r2
      rw [processTargets, hp] at h
      exact extVisited_trans (processPending_ext recur H _ _ _ _ hp) (ih _ _ _ h)

theorem resolveFile_ext (fs : FileSystem) :
    ∀ (fuel : Nat) (path : String) (st : ResolveState) (r : String × ResolveState),
      resolveFileFuel fs fuel path st = some r → ExtVisited st r.2 := by
  intro fuel
  induction fuel with
  | zero => intro path st r h; cases h
  | succ fuel ih =>
    intro path st r h
    rw [resolveFileFuel] at h
    by_cases hv : st.visited.contains path
    · rw [if_pos hv, Option.some.injEq] at h
      rw [← h]
      exact extVisited_refl st
    · rw [if_neg hv] at h
      by_cases hex : fs.pathExists path
      · rw [if_pos hex] at h
        have hmain := processTargets_ext fs (resolveFileFuel fs fuel) (dirname path)
          (fun p st r hr => ih p st r hr) _ _ _ _ h
        intro x hx
        exact hmain x (List.mem_cons_of_mem _ hx)
      · rw [if_neg hex, Option.some.injEq] at h
        rw [← h]
        intro x hx
        exact List.mem_cons_of_mem _ hx
theorem processPending_inv
    (recur : String → ResolveState → Option (String × ResolveState))
    (H : ∀ p st r, recur p st = some r → ReadsInv st → ReadsInv r.2) :
    ∀ (ps : List String) (content : String) (st : ResolveState) (r : String × ResolveState),
      processPending recur ps content st = some r → ReadsInv st → ReadsInv r.2 := by
  intro ps
  induction ps with
  | nil =>
    intro content st r h hinv
    simp only [processPending, Option.some.injEq] at h
    rw [← h]
    exact hinv
  | cons p ps ih =>
    intro content st r h hinv
    cases hr : recur p st with
    | none => rw [processPending, hr] at h; cases h
    | some r2 =>
      obtain ⟨txt, st2⟩ := r2
      rw [processPending, hr] at h
      exact ih _ _ _ h (H p st (txt, st2) hr hinv)

theorem processTargets_inv (fs : FileSystem)
    (recur : String → ResolveState → Option (String × ResolveState)) (baseDir : String)
    (H : ∀ p st r, recur p st = some r → ReadsInv st → ReadsInv r.2) :
    ∀ (ts : List String) (content : String) (st : ResolveState) (r : String × ResolveState),
      processTargets fs recur baseDir ts content st = some r → ReadsInv st → ReadsInv r.2 := by
  intro ts
  induction ts with
  | nil =>
    intro content st r h hinv
    simp only [processTargets, Option.some.injEq] at h
    rw [← h]
    exact hinv
  | cons t ts ih =>
    intro content st r h hinv
    cases hp : processPending recur (targetPaths fs baseDir content t) content st with
    | none => rw [processTargets, hp] at h; cases h
    | some r2 =>
      obtain ⟨c2, st2⟩ := r2
      rw [processTargets, hp] at h
      exact ih _ _ _ h (processPending_inv recur H _ _ _ _ hp hinv)

theorem resolveFile_inv (fs : FileSystem) :
    ∀ (fuel : Nat) (path : String) (st : ResolveState) (r : String × ResolveState),
      resolveFileFuel fs fuel path st = some r → ReadsInv st → ReadsInv r.2 := by
  intro fuel
  induction fuel with
  | zero => intro path st r h; cases h
  | succ fuel ih =>
    intro path st r h hinv
    rw [resolveFileFuel] at h
    by_cases hv : st.visited.contains path
    · rw [if_pos hv, Option.some.injEq] at h
      rw [← h]
      exact hinv
    · rw [if_neg hv] at h
      have hnmem : ¬ path ∈ st.visited := by
        simp only [Bool.not_eq_true] at hv
        exact containsFalse.mp hv
      by_cases hex : fs.pathExists path
      · rw [if_pos hex] at h
        have hinv2 : ReadsInv
            { st with visited := path :: st.visited, reads := st.reads ++ [path] } := by
          constructor
          · have hnr : ¬ path ∈ st.reads := fun hr => hnmem (hinv.2 path hr)
            simp [List.nodup_append, hinv.1, hnr]
          · intro p hp
            rcases List.mem_append.mp hp with hp2 | hp2
            · exact List.mem_cons_of_mem _ (hinv.2 p hp2)
            · rw [List.mem_singleton.mp hp2]
              exact List.mem_cons_self _ _
        exact processTargets_inv fs (resolveFileFuel fs fuel) (dirname path)
          (fun p st r hr hi => ih p st r hr hi) _ _ _ _ h hinv2
      · rw [if_neg hex, Option.some.injEq] at h
        rw [← h]
        exact ⟨hinv.1, fun p hp => List.mem_cons_of_mem _ (hinv.2 p hp)⟩

theorem processPending_some (fs : FileSystem)
    (recur : String → ResolveState → Option (String × ResolveState)) (fuel : Nat)
    (Hext : ∀ p st r, recur p st = some r → ExtVisited st r.2)
    (Hsome : ∀ p st, unvisitedCount fs st < fuel → (recur p st).isSome) :
    ∀ (ps : List String) (content : String) (st : ResolveState),
      unvisitedCount fs st < fuel → (processPending recur ps content st).isSome := by
  intro ps
  induction ps with
  | nil => intro content st _; simp [processPending]
  | cons p ps ih =>
    intro content st hlt
    cases hr : recur p st with
    | none =>
      have := Hsome p st hlt
      rw [hr] at this
      cases this
    | some r2 =>
      obtain ⟨txt, st2⟩ := r2
      rw [processPending, hr]
      have hle : unvisitedCount fs st2 ≤ unvisitedCount fs st :=
        @extVisited_unvisited_le fs st st2 (Hext p st (txt, st2) hr)
      exact ih _ _ (by omega)

theorem processTargets_some (fs : FileSystem)
    (recur : String → ResolveState → Option (String × ResolveState)) (baseDir : String) (fuel : Nat)
    (Hext : ∀ p st r, recur p st = some r → ExtVisited st r.2)
    (Hsome : ∀ p st, unvisitedCount fs st < fuel → (recur p st).isSome) :
    ∀ (ts : List String) (content : String) (st : ResolveState),
      unvisitedCount fs st < fuel → (processTargets fs recur baseDir ts content st).isSome := by
  intro ts
  induction ts with
  | nil => intro content st _; simp [processTargets]
  | cons t ts ih =>
    intro content st hlt
    cases hp : processPending recur (targetPaths fs baseDir content t) content st with
    | none =>
      have := processPending_some fs recur fuel Hext Hsome (targetPaths fs baseDir content t)
        content st hlt
      rw [hp] at this
      cases this
    | some r2 =>
      obtain ⟨c2, st2⟩ := r2
      rw [processTargets, hp]
      have hle : unvisitedCount fs st2 ≤ unvisitedCount fs st :=
        @extVisited_unvisited_le fs st st2 (processPending_ext recur Hext _ _ _ _ hp)
      exact ih _ _ (by omega)

theorem resolveFile_some (fs : FileSystem) :
    ∀ (fuel : Nat) (path : String) (st : ResolveState),
      unvisitedCount fs st < fuel → (resolveFileFuel fs fuel path st).isSome := by
  intro fuel
  induction fuel with
  | zero => intro path st hlt; omega
  | succ fuel ih =>
    intro path st hlt
    rw [resolveFileFuel]
    by_cases hv : st.visited.contains path
    · rw [if_pos hv]; rfl
    · rw [if_neg hv]
      have hnmem : ¬ path ∈ st.visited := by
        simp only [Bool.not_eq_true] at hv
        exact containsFalse.mp hv
      by_cases hex : fs.pathExists path
      · rw [if_pos hex]
        have hlt2 : unvisitedCount fs { st with visited := path :: st.visited } < fuel := by
          have := @unvisitedCons fs st path hex hnmem
          omega
        exact processTargets_some fs (resolveFileFuel fs fuel) (dirname path) fuel
          (resolveFile_ext fs fuel) ih _ _ _ hlt2
      · rw [if_neg hex]; rfl

/-- Claim C1: for every filesystem — cyclic include graphs included — the
resolver terminates (fuel `fs.files.length + 1` always suffices, so the
modelled recursion never runs out), the corpus is a finite string, and each
file is opened and its content contributed at most once per top-level
invocation: the list of performed reads has no duplicates. -/
theorem parse_include_files_total :
    ∀ (fs : FileSystem) (path : String), ∃ (text : String) (st : ResolveState),
      parse_include_files fs path = some (text, st) ∧ st.reads.Nodup := by
  intro fs path
  have hlt : unvisitedCount fs ⟨[], [], []⟩ < fs.files.length + 1 := by
    have h1 : unvisitedCount fs ⟨[], [], []⟩ ≤ fs.listing.length := List.length_filter_le _ _
    have h2 : fs.listing.length = fs.files.length := by simp [FileSystem.listing]
    omega
  have hs := resolveFile_some fs (fs.files.length + 1) path ⟨[], [], []⟩ hlt
  obtain ⟨r, hr⟩ := Option.isSome_iff_exists.mp hs
  obtain ⟨text, st⟩ := r
  refine ⟨text, st, hr, ?_⟩
  have hinv := resolveFile_inv fs (fs.files.length + 1) path ⟨[], [], []⟩ (text, st) hr
    ⟨List.nodup_nil, by simp⟩
  exact hinv.1
theorem startsWithL_iff : ∀ (pat cs : List Char),
    startsWithL cs pat = true ↔ ∃ rest, cs = pat ++ rest := by
  intro pat
  induction pat with
  | nil =>
    intro cs
    constructor
    · intro _; exact ⟨cs, rfl⟩
    · intro _; cases cs <;> rfl
  | cons p ps ih =>
    intro cs
    cases cs with
    | nil =>
      constructor
      · intro h; cases h
      · rintro ⟨rest, hr⟩; cases hr
    | cons c ct =>
      rw [startsWithL, Bool.and_eq_true, beq_iff_eq, ih ct]
      constructor
      · rintro ⟨hcp, rest, hr⟩
        exact ⟨rest, by rw [hcp, hr]; rfl⟩
      · rintro ⟨rest, hr⟩
        rw [List.cons_append] at hr
        injection hr with h1 h2
        exact ⟨h1, rest, h2⟩

theorem hasSubL_iff : ∀ (cs pat : List Char),
    hasSubL cs pat = true ↔ ∃ pre rest, cs = pre ++ (pat ++ rest) := by
  intro cs
  induction cs with
  | nil =>
    intro pat
    rw [hasSubL]
    constructor
    · intro h
      refine ⟨[], [], ?_⟩
      rw [List.isEmpty_iff.mp h]
      rfl
    · rintro ⟨pre, rest, hr⟩
      rcases List.append_eq_nil.mp hr.symm with ⟨h1, h2⟩
      rcases List.append_eq_nil.mp h2 with ⟨h3, _⟩
      rw [h3]
      rfl
  | cons c t ih =>
    intro pat
    rw [hasSubL, Bool.or_eq_true, startsWithL_iff, ih]
    constructor
    · rintro (⟨rest, hr⟩ | ⟨pre, rest, hr⟩)
      · exact ⟨[], rest, by rw [hr]; rfl⟩
      · exact ⟨c :: pre, rest, by rw [hr]; rfl⟩
    · rintro ⟨pre, rest, hr⟩
      cases pre with
      | nil =>
        exact Or.inl ⟨rest, by rw [hr]; rfl⟩
      | cons p pt =>
        rw [List.cons_append] at hr
        injection hr with h1 h2
        exact Or.inr ⟨pt, rest, h2⟩

theorem hasSubL_append_mid (cs a b c : List Char)
    (h : hasSubL cs (a ++ (b ++ c)) = true) : hasSubL cs b = true := by
  rcases (hasSubL_iff cs _).mp h with ⟨pre, rest, hr⟩
  refine (hasSubL_iff cs b).mpr ⟨pre ++ a, c ++ rest, ?_⟩
  rw [hr]
  simp [List.append_assoc]

theorem hasSubL_cons (c : Char) (t pat : List Char) (h : hasSubL t pat = true) :
    hasSubL (c :: t) pat = true := by
  rw [hasSubL, Bool.or_eq_true]
  exact Or.inr h

theorem hasSubL_of_suffix_starts (cs pre r2 pat : List Char)
    (hr : cs = pre ++ r2) (h : startsWithL r2 pat = true) : hasSubL cs pat = true := by
  rcases (startsWithL_iff pat r2).mp h with ⟨rest, hrest⟩
  exact (hasSubL_iff cs pat).mpr ⟨pre, rest, by rw [hr, hrest]⟩

theorem threadHeaderHere_sub (cs : List Char) (h : threadHeaderHere cs = true) :
    hasSubL cs ['t', 'h', 'r', 'e', 'a', 'd'] = true := by
  rw [threadHeaderHere, Bool.and_eq_true] at h
  obtain ⟨-, h2⟩ := h
  rcases hm : (cs.drop 8).dropWhile pyWS with _ | ⟨b, r2⟩
  · rw [hm] at h2; cases h2
  · rw [hm] at h2
    rw [Bool.and_eq_true, Bool.and_eq_true] at h2
    obtain ⟨⟨-, hsw⟩, -⟩ := h2
    have hsuf : cs = (cs.take 8 ++ (cs.drop 8).takeWhile pyWS ++ [b]) ++ r2 := by
      conv_lhs => rw [← List.take_append_drop 8 cs]
      conv_lhs => rw [← List.takeWhile_append_dropWhile pyWS (cs.drop 8)]
      rw [hm]
      simp
    exact hasSubL_of_suffix_starts cs _ r2 _ hsuf hsw

theorem threadHeaderSearch_sub : ∀ cs : List Char, threadHeaderSearch cs = true →
    hasSubL cs ['t', 'h', 'r', 'e', 'a', 'd'] = true := by
  intro cs
  induction cs with
  | nil => intro h; cases h
  | cons c t ih =>
    intro h
    rw [threadHeaderSearch, Bool.or_eq_true] at h
    rcases h with h | h
    · exact threadHeaderHere_sub _ h
    · exact hasSubL_cons c t _ (ih h)

/-- Collapse of the indicator battery: the flag equals the case-insensitive
substring test for `thread` (helper shared by the threading claims). -/
theorem hasMultithreadingB_eq_containsCI :
    ∀ content : String, hasMultithreadingB content = containsCI content "thread" := by
  intro content
  cases hc : containsCI content "thread" with
  | true => simp [hasMultithreadingB, hc]
  | false =>
    rw [hasMultithreadingB]
    have key : ∀ (pat : String) (a c : List Char),
        lowerL pat.data = a ++ (lowerL "thread".data ++ c) →
        containsCI content pat = false := by
      intro pat a c hdec
      cases hp : containsCI content pat with
      | false => rfl
      | true =>
        rw [containsCI, hdec] at hp
        have := hasSubL_append_mid _ _ _ _ hp
        rw [containsCI] at hc
        rw [hc] at this
        cases this
    rw [key "-lpthread" ['-', 'l', 'p'] [] (by decide)]
    rw [key "-pthread" ['-', 'p'] [] (by decide)]
    rw [key "pthread" ['p'] [] (by decide)]
    rw [key "std::thread" ['s', 't', 'd', ':', ':'] [] (by decide)]
    rw [key "boost::thread" ['b', 'o', 'o', 's', 't', ':', ':'] [] (by decide)]
    rw [hc]
    have hhs : threadHeaderSearch (lowerL content.data) = false := by
      cases hts : threadHeaderSearch (lowerL content.data) with
      | false => rfl
      | true =>
        have := threadHeaderSearch_sub _ hts
        have hth : containsCI content "thread" = true := by
          rw [containsCI]
          have hpat : lowerL "thread".data = ['t', 'h', 'r', 'e', 'a', 'd'] := by decide
          rw [hpat]
          exact this
        rw [hc] at hth
        cases hth
    rw [hhs]
    rfl

/-- Claim C10: the seven-indicator threading battery collapses to a single
test — the report flag is set exactly when the corpus contains the
substring `thread`, case-insensitively: `thread` itself is the third
indicator, and every other indicator contains `thread` as a sub-pattern. -/
theorem multithreading_iff_thread_substring :
    ∀ content : String,
      (analyzeContent content).has_multithreading = containsCI content "thread" :=
  fun content => hasMultithreadingB_eq_containsCI content

/-- Claim C7: a corpus containing the flag `-pthread` (case-insensitively)
gets `has_multithreading = true`; a corpus on which all seven listed
indicators fail — the two linker/compiler flags, the bare substrings
`thread` and `pthread`, the two namespace tokens, and the textual include
of a threading header — gets `has_multithreading = false`. -/
theorem pthread_sets_flag_and_no_indicator_clears :
    (∀ content : String, containsCI content "-pthread" = true →
        (analyzeContent content).has_multithreading = true) ∧
      (∀ content : String,
        containsCI content "-lpthread" = false → containsCI content "-pthread" = false →
        containsCI content "thread" = false → containsCI content "pthread" = false →
        containsCI content "std::thread" = false → containsCI content "boost::thread" = false →
        threadHeaderSearch (lowerL content.data) = false →
        (analyzeContent content).has_multithreading = false) := by
  constructor
  · intro content h
    show hasMultithreadingB content = true
    rw [hasMultithreadingB, h]
    simp
  · intro content h1 h2 h3 h4 h5 h6 h7
    show hasMultithreadingB content = false
    rw [hasMultithreadingB, h1, h2, h3, h4, h5, h6, h7]
    rfl

/-- Witness for claim C7: `-pthread` alone sets the flag; a corpus with no
indicator leaves it clear. -/
theorem pthread_sets_flag_and_no_indicator_clears_witness :
    (analyzeContent "CFLAGS = -pthread").has_multithreading = true ∧
      (analyzeContent "SRCDIR = src").has_multithreading = false :=
  ⟨pthread_sets_flag_and_no_indicator_clears.1 "CFLAGS = -pthread" (by decide),
   pthread_sets_flag_and_no_indicator_clears.2 "SRCDIR = src" (by decide) (by decide) (by decide)
     (by decide) (by decide) (by decide) (by decide)⟩
theorem allTakeWhileAppend (p : Char → Bool) : ∀ (xs ys : List Char), xs.all p = true →
    (xs ++ ys).takeWhile p = xs ++ ys.takeWhile p := by
  intro xs ys
  induction xs with
  | nil => intro _; rfl
  | cons x xt ih =>
    intro h
    rw [List.all_cons, Bool.and_eq_true] at h
    rw [List.cons_append, List.takeWhile_cons, h.1, ih h.2]
    simp

theorem allDropWhileAppend (p : Char → Bool) : ∀ (xs ys : List Char), xs.all p = true →
    (xs ++ ys).dropWhile p = ys.dropWhile p := by
  intro xs ys
  induction xs with
  | nil => intro _; rfl
  | cons x xt ih =>
    intro h
    rw [List.all_cons, Bool.and_eq_true] at h
    rw [List.cons_append, List.dropWhile_cons, h.1]
    simp [ih h.2]

theorem substAux_var (content : List Char) (f : Nat) (b close : Char)
    (nm rest2 : List Char) (v : List Char)
    (hb : b = '(' ∨ b = '{') (hc : close = ')' ∨ close = '}')
    (h1 : nm ≠ []) (h2 : nm.all isVarChar = true)
    (hlk : lookupVarFirst content nm = some v) :
    substAuxF content (f + 1) ('$' :: b :: (nm ++ close :: rest2)) =
      v ++ substAuxF content f rest2 := by
  have hcv : isVarChar close = false := by
    rcases hc with hc | hc <;> rw [hc] <;> decide
  have htw : (nm ++ close :: rest2).takeWhile isVarChar = nm := by
    rw [allTakeWhileAppend isVarChar nm (close :: rest2) h2, List.takeWhile_cons, hcv]
    simp
  have hbb : (b == '(' || b == '{') = true := by
    rcases hb with hb | hb <;> rw [hb] <;> decide
  have hcc : (close == ')' || close == '}') = true := by
    rcases hc with hc | hc <;> rw [hc] <;> decide
  rw [substAuxF]
  simp only [hbb, if_true, htw, List.drop_left, hcc, true_and, Bool.and_eq_true,
    decide_eq_true_eq]
  rw [if_pos h1, hlk]
/-- Head of a non-empty `dropWhile` result fails the predicate. -/
theorem dropWhileHeadNe (p : Char → Bool) : ∀ (l : List Char) (c : Char) (t : List Char),
    l.dropWhile p = c :: t → p c = false := by
  intro l
  induction l with
  | nil => intro c t h; cases h
  | cons a l2 ih =>
    intro c t h
    rw [List.dropWhile_cons] at h
    by_cases hp : p a
    · rw [if_pos hp] at h
      exact ih c t h
    · rw [if_neg hp] at h
      injection h with h1 h2
      rw [← h1]
      cases hpa : p a with
      | false => rfl
      | true => exact absurd hpa hp

/-- `dropWhile` over an append when it already stops inside the left part. -/
theorem dropWhileAppendNe (p : Char → Bool) : ∀ (xs ys : List Char) (c : Char) (t : List Char),
    xs.dropWhile p = c :: t → (xs ++ ys).dropWhile p = c :: (t ++ ys) := by
  intro xs
  induction xs with
  | nil => intro ys c t h; cases h
  | cons a xs2 ih =>
    intro ys c t h
    rw [List.dropWhile_cons] at h
    rw [List.cons_append, List.dropWhile_cons]
    by_cases hp : p a
    · rw [if_pos hp] at h ⊢
      exact ih ys c t h
    · rw [if_neg hp] at h ⊢
      injection h with h1 h2
      rw [h1, h2]

/-- The anchored-search walk reaches the first successful line start: if the
attempt at the line start opening `suf` succeeds with value `v` and every
strictly earlier line-start attempt fails, the whole search returns `v`. -/
theorem searchWalk (name : List Char) : ∀ (fuel : Nat) (pre suf v : List Char),
    (pre ++ suf).length < fuel →
    (pre = [] ∨ pre.getLast? = some '\n') →
    searchAssignAt name suf = some v →
    (∀ p s, pre ++ suf = p ++ s → (p = [] ∨ p.getLast? = some '\n') →
      p.length < pre.length → searchAssignAt name s = none) →
    searchAssignF name fuel (pre ++ suf) = some v := by
  intro fuel
  induction fuel with
  | zero => intro pre suf v hlt _ _ _; omega
  | succ fuel ih =>
    intro pre suf v hlt hline hat hnone
    cases pre with
    | nil =>
      simp only [List.nil_append]
      rw [searchAssignF, hat]
    | cons a pre0 =>
      have hlast : (a :: pre0).getLast? = some '\n' := by
        rcases hline with h | h
        · cases h
        · exact h
      have hmem : '\n' ∈ a :: pre0 := List.mem_of_mem_getLast? hlast
      have hne : (a :: pre0).dropWhile (fun c => !(c == '\n')) ≠ [] := by
        intro hnil
        have h2 := List.dropWhile_eq_nil_iff.mp hnil '\n' hmem
        simp at h2
      obtain ⟨c, t, hdrop⟩ : ∃ c t, (a :: pre0).dropWhile (fun c => !(c == '\n')) = c :: t := by
        cases hd : (a :: pre0).dropWhile (fun c => !(c == '\n')) with
        | nil => exact absurd hd hne
        | cons c t => exact ⟨c, t, rfl⟩
      have hc : c = '\n' := by
        have h3 := dropWhileHeadNe _ _ _ _ hdrop
        simpa using h3
      subst hc
      have hsplit : (a :: pre0) =
          ((a :: pre0).takeWhile (fun c => !(c == '\n'))) ++ '\n' :: t := by
        conv_lhs => rw [← List.takeWhile_append_dropWhile (fun c => !(c == '\n')) (a :: pre0)]
        rw [hdrop]
      have hat0 : searchAssignAt name ((a :: pre0) ++ suf) = none := by
        apply hnone [] ((a :: pre0) ++ suf) rfl (Or.inl rfl)
        simp
      rw [searchAssignF, hat0]
      have hdropfull : ((a :: pre0) ++ suf).dropWhile (fun c => !(c == '\n')) =
          '\n' :: (t ++ suf) := dropWhileAppendNe _ _ _ _ _ hdrop
      rw [hdropfull]
      have hlens := congrArg List.length hsplit
      simp only [List.length_cons, List.length_append] at hlens
      apply ih t suf v
      · have hl2 : ((a :: pre0) ++ suf).length < fuel + 1 := hlt
        simp only [List.length_append, List.length_cons] at hl2 ⊢
        omega
      · cases t with
        | nil => exact Or.inl rfl
        | cons x t0 =>
          right
          rw [hsplit] at hlast
          rw [List.getLast?_append_of_ne_nil _ (by simp)] at hlast
          rw [show ('\n' :: x :: t0 : List Char) = ['\n'] ++ x :: t0 from rfl] at hlast
          rw [List.getLast?_append_of_ne_nil _ (by simp)] at hlast
          exact hlast
      · exact hat
      · intro p s hps hpl hplen
        apply hnone (((a :: pre0).takeWhile (fun c => !(c == '\n'))) ++ '\n' :: p) s
        · conv_lhs => rw [hsplit]
          simp only [List.append_assoc, List.cons_append]
          rw [hps]
        · right
          rcases hpl with hp | hp
          · rw [hp]
            exact List.getLast?_concat _
          · rw [List.getLast?_append_of_ne_nil _ (by simp)]
            cases p with
            | nil => simp at hp
            | cons q qt =>
              rw [show ('\n' :: q :: qt : List Char) = ['\n'] ++ q :: qt from rfl]
              rw [List.getLast?_append_of_ne_nil _ (by simp)]
              exact hp
        · simp only [List.length_append, List.length_cons]
          omega

/-- Claim C3, amended: in the resolver's include-target substitution, when
the scanned content contains two or more assignment matches for `NAME`,
every `$(NAME)` or `${NAME}` occurrence is replaced by the value of the
FIRST match found by `expand_var`'s top-to-bottom `re.search` — whose
whitespace runs may span newlines — and not by the last: the later
assignment never overwrites the earlier one for substitution purposes.
The hypotheses say that the anchored attempt at the line start opening
`suf` yields `v`, every earlier line-start attempt fails, and a strictly
later line start still carries another assignment match `w`. -/
theorem expand_var_first_assignment_wins :
    ∀ (content name : String) (pre suf v p2 s2 w : List Char),
      name.data ≠ [] → name.data.all isVarChar = true →
      content.data = pre ++ suf →
      (pre = [] ∨ pre.getLast? = some '\n') →
      searchAssignAt name.data suf = some v →
      (∀ p s, content.data = p ++ s → (p = [] ∨ p.getLast? = some '\n') →
        p.length < pre.length → searchAssignAt name.data s = none) →
      content.data = p2 ++ s2 → p2.getLast? = some '\n' → pre.length < p2.length →
      searchAssignAt name.data s2 = some w →
      substVars content ("$(" ++ name ++ ")") = String.mk v ∧
        substVars content ("$\x7b" ++ name ++ "\x7d") = String.mk v := by
  intro content name pre suf v p2 s2 w h1 h2 hcd hline hat hnone hcd2 hp2 hlt2 hat2
  have hlk : lookupVarFirst content.data name.data = some v := by
    rw [lookupVarFirst, hcd]
    apply searchWalk name.data ((pre ++ suf).length + 1) pre suf v (by omega) hline hat
    intro p s hps hpl hplen
    exact hnone p s (by rw [hcd, hps]) hpl hplen
  constructor
  · have hdata : ("$(" ++ name ++ ")").data = '$' :: '(' :: (name.data ++ ')' :: []) := by
      simp [String.data_append]
    rw [substVars, hdata]
    have hlen3 : ('$' :: '(' :: (name.data ++ ')' :: [])).length = (name.data.length + 2) + 1 := by
      simp
    rw [hlen3]
    rw [substAux_var content.data (name.data.length + 2) '(' ')' name.data [] v
      (Or.inl rfl) (Or.inl rfl) h1 h2 hlk]
    have hnil : substAuxF content.data (name.data.length + 2) [] = [] := by
      rw [show name.data.length + 2 = (name.data.length + 1) + 1 from rfl]
      rfl
    rw [hnil, List.append_nil]
  · have hdata : ("$\x7b" ++ name ++ "\x7d").data = '$' :: '{' :: (name.data ++ '}' :: []) := by
      simp [String.data_append]
    rw [substVars, hdata]
    have hlen3 : ('$' :: '{' :: (name.data ++ '}' :: [])).length = (name.data.length + 2) + 1 := by
      simp
    rw [hlen3]
    rw [substAux_var content.data (name.data.length + 2) '{' '}' name.data [] v
      (Or.inr rfl) (Or.inr rfl) h1 h2 hlk]
    have hnil : substAuxF content.data (name.data.length + 2) [] = [] := by
      rw [show name.data.length + 2 = (name.data.length + 1) + 1 from rfl]
      rfl
    rw [hnil, List.append_nil]

/-- Witness for the amended claim C3, on a content whose first match even
spans a newline (`A` on one line, `= zero` on the next): the substituted
value is `zero`, not the later per-line assignments. -/
theorem expand_var_first_assignment_wins_witness :
    substVars "A\n=zero\nA = one\nA = two\ninclude $(A)\n" ("$(" ++ "A" ++ ")") =
        String.mk "zero".data ∧
      substVars "A\n=zero\nA = one\nA = two\ninclude $(A)\n" ("$\x7b" ++ "A" ++ "\x7d") =
        String.mk "zero".data :=
  expand_var_first_assignment_wins "A\n=zero\nA = one\nA = two\ninclude $(A)\n" "A"
    [] "A\n=zero\nA = one\nA = two\ninclude $(A)\n".data "zero".data
    "A\n=zero\n".data "A = one\nA = two\ninclude $(A)\n".data "one".data
    (by decide) (by decide) (by simp) (Or.inl rfl) (by decide)
    (fun p s hps hpl hplen => absurd hplen (Nat.not_lt_zero _))
    (by decide) (by decide) (by decide) (by decide)

theorem startsWithL_append_left : ∀ (pat xs ys : List Char),
    startsWithL xs pat = true → startsWithL (xs ++ ys) pat = true := by
  intro pat
  induction pat with
  | nil => intro xs ys _; cases xs ++ ys <;> rfl
  | cons p ps ih =>
    intro xs ys h
    cases xs with
    | nil => cases h
    | cons x xt =>
      rw [startsWithL, Bool.and_eq_true] at h
      rw [List.cons_append, startsWithL, Bool.and_eq_true]
      exact ⟨h.1, ih xt ys h.2⟩

theorem startsWithL_long : ∀ (pat xs ys : List Char),
    startsWithL (xs ++ ys) pat = true → pat.length ≤ xs.length → startsWithL xs pat = true := by
  intro pat
  induction pat with
  | nil => intro xs ys _ _; cases xs <;> rfl
  | cons p ps ih =>
    intro xs ys h hlen
    cases xs with
    | nil => simp at hlen
    | cons x xt =>
      rw [List.cons_append, startsWithL, Bool.and_eq_true] at h
      rw [startsWithL, Bool.and_eq_true]
      refine ⟨h.1, ih xt ys h.2 ?_⟩
      simp only [List.length_cons] at hlen
      omega

theorem startsWithL_getq : ∀ (pat cs : List Char), startsWithL cs pat = true →
    ∀ i, i < pat.length → cs.get? i = pat.get? i := by
  intro pat
  induction pat with
  | nil => intro cs _ i hi; simp at hi
  | cons p ps ih =>
    intro cs h i hi
    cases cs with
    | nil => cases h
    | cons c ct =>
      rw [startsWithL, Bool.and_eq_true, beq_iff_eq] at h
      cases i with
      | zero => simp [h.1]
      | succ j =>
        simp only [List.get?_cons_succ]
        exact ih ct h.2 j (by simpa using hi)

theorem startsWith_cross_false (pre seg post pat : List Char)
    (hpre : pre ≠ []) (hseg : seg ≠ [])
    (hsub : hasSubL pre pat = false)
    (hcross : ∀ k, k < pat.length → 1 ≤ k → ¬ pat.get? k = seg.get? 0) :
    startsWithL (pre ++ (seg ++ post)) pat = false := by
  cases hs : startsWithL (pre ++ (seg ++ post)) pat with
  | false => rfl
  | true =>
    exfalso
    by_cases hlen : pat.length ≤ pre.length
    · have hsw := startsWithL_long pat pre (seg ++ post) hs hlen
      cases pre with
      | nil => exact hpre rfl
      | cons c t =>
        have : hasSubL (c :: t) pat = true := by
          rw [hasSubL, Bool.or_eq_true]
          exact Or.inl hsw
        rw [hsub] at this
        cases this
    · push_neg at hlen
      have h0 : 1 ≤ pre.length := by
        cases pre with
        | nil => exact absurd rfl hpre
        | cons _ _ => simp
      have hget := startsWithL_getq pat _ hs pre.length hlen
      have hright : (pre ++ (seg ++ post)).get? pre.length = (seg ++ post).get? 0 := by
        rw [List.get?_eq_getElem?, List.get?_eq_getElem?,
          List.getElem?_append_right (Nat.le_refl _)]
        simp
      have hseg0 : (seg ++ post).get? 0 = seg.get? 0 := by
        cases seg with
        | nil => exact absurd rfl hseg
        | cons s st => rfl
      exact hcross pre.length hlen h0 (by rw [← hget, hright, hseg0])
theorem dashI_base (post : List Char)
    (hpost : post = [] ∨ ∃ d post2, post = d :: post2 ∧ pyWS d = true) :
    "include/common" ∈
      extractDashIF ("-Iinclude/common".data ++ post).length ("-Iinclude/common".data ++ post) := by
  have hcs : "-Iinclude/common".data ++ post =
      '-' :: 'I' :: ("include/common".data ++ post) := rfl
  rw [hcs, List.length_cons, List.length_cons]
  rw [extractDashIF]
  have hdw : ("include/common".data ++ post).dropWhile pyWS =
      "include/common".data ++ post := by
    have h1 : "include/common".data ++ post = 'i' :: ("nclude/common".data ++ post) := rfl
    have hni : pyWS 'i' = false := by decide
    rw [h1, List.dropWhile_cons, hni]
    simp
  have htw : ("include/common".data ++ post).takeWhile (fun c => !(pyWS c)) =
      "include/common".data := by
    rw [allTakeWhileAppend (fun c => !(pyWS c)) "include/common".data post (by decide)]
    rcases hpost with hpost | ⟨d, post2, hpost, hd⟩
    · rw [hpost]; rfl
    · rw [hpost, List.takeWhile_cons, hd]
      simp
  simp only [hdw, htw]
  have hne : ("include/common".data : List Char) ≠ [] := by decide
  rw [if_pos (by decide), if_neg hne]
  have hstrip : String.mk (stripCh "include/common".data) = "include/common" := by decide
  rw [hstrip]
  exact List.mem_cons_self _ _
theorem dashI_finds : ∀ (pre post : List Char),
    hasSubL pre ['-', 'I'] = false →
    (post = [] ∨ ∃ d post2, post = d :: post2 ∧ pyWS d = true) →
    "include/common" ∈
      extractDashIF (pre ++ ("-Iinclude/common".data ++ post)).length
        (pre ++ ("-Iinclude/common".data ++ post)) := by
  intro pre
  induction pre with
  | nil =>
    intro post h hpost
    simpa using dashI_base post hpost
  | cons c pre' ih =>
    intro post h hpost
    have h' : hasSubL pre' ['-', 'I'] = false := by
      rw [hasSubL, Bool.or_eq_false_iff] at h
      exact h.2
    rw [List.cons_append, List.length_cons]
    cases pre' with
    | nil =>
      have hX : "-Iinclude/common".data ++ post =
          '-' :: 'I' :: ("include/common".data ++ post) := rfl
      simp only [List.nil_append]
      rw [hX, extractDashIF]
      have hcond : (c == '-' && ('-' == 'I')) = false := by
        have h2 : ('-' == 'I') = false := by decide
        rw [h2, Bool.and_false]
      rw [if_neg (by rw [hcond]; exact Bool.false_ne_true)]
      exact dashI_base post hpost
    | cons d pre'' =>
      rw [List.cons_append, extractDashIF]
      by_cases hcd : (c == '-' && d == 'I') = true
      · exfalso
        rw [Bool.and_eq_true, beq_iff_eq, beq_iff_eq] at hcd
        have htrue : hasSubL (c :: d :: pre'') ['-', 'I'] = true := by
          rw [hcd.1, hcd.2]
          simp [hasSubL, startsWithL]
        rw [h] at htrue
        cases htrue
      · rw [if_neg hcd]
        exact ih post h' hpost
theorem includeVar_base (post : List Char)
    (hpost : post = [] ∨ ∃ d post2, post = d :: post2 ∧ (pyWS d = true ∨ d = '#')) :
    "/usr/local/include" ∈
      extractIncludeVarF ("INCLUDE_DIRS = /usr/local/include".data ++ post).length
        ("INCLUDE_DIRS = /usr/local/include".data ++ post) := by
  have hcs : "INCLUDE_DIRS = /usr/local/include".data ++ post =
      'I' :: ("NCLUDE_DIRS = /usr/local/include".data ++ post) := rfl
  rw [hcs, List.length_cons]
  have hstep : extractIncludeVarF (("NCLUDE_DIRS = /usr/local/include".data ++ post).length + 1)
      ('I' :: ("NCLUDE_DIRS = /usr/local/include".data ++ post)) =
      (if (("/usr/local/include".data ++ post).takeWhile
            (fun ch => !(pyWS ch) && ch ≠ '#')) = []
       then extractIncludeVarF ("NCLUDE_DIRS = /usr/local/include".data ++ post).length
         ("NCLUDE_DIRS = /usr/local/include".data ++ post)
       else String.mk (stripCh (("/usr/local/include".data ++ post).takeWhile
              (fun ch => !(pyWS ch) && ch ≠ '#'))) ::
            extractIncludeVarF ("NCLUDE_DIRS = /usr/local/include".data ++ post).length
              (("/usr/local/include".data ++ post).drop
                (("/usr/local/include".data ++ post).takeWhile
                  (fun ch => !(pyWS ch) && ch ≠ '#')).length)) := rfl
  rw [hstep]
  have htok : ("/usr/local/include".data ++ post).takeWhile
      (fun ch => !(pyWS ch) && ch ≠ '#') = "/usr/local/include".data := by
    rw [allTakeWhileAppend _ "/usr/local/include".data post (by decide)]
    rcases hpost with hpost | ⟨d, post2, hpost, hd⟩
    · rw [hpost]; rfl
    · rw [hpost, List.takeWhile_cons]
      have hdf : (!(pyWS d) && d ≠ '#') = false := by
        rcases hd with hd | hd
        · rw [hd]; rfl
        · rw [hd]; simp
      rw [hdf]
      simp
  rw [htok]
  have hne : ("/usr/local/include".data : List Char) ≠ [] := by decide
  rw [if_neg hne]
  have hstrip : String.mk (stripCh "/usr/local/include".data) = "/usr/local/include" := by decide
  rw [hstrip]
  exact List.mem_cons_self _ _

theorem includeVar_finds : ∀ (pre post : List Char),
    hasSubL pre ['I', 'N', 'C', 'L', 'U', 'D', 'E'] = false →
    (post = [] ∨ ∃ d post2, post = d :: post2 ∧ (pyWS d = true ∨ d = '#')) →
    "/usr/local/include" ∈
      extractIncludeVarF (pre ++ ("INCLUDE_DIRS = /usr/local/include".data ++ post)).length
        (pre ++ ("INCLUDE_DIRS = /usr/local/include".data ++ post)) := by
  intro pre
  induction pre with
  | nil =>
    intro post h hpost
    simpa using includeVar_base post hpost
  | cons c pre' ih =>
    intro post h hpost
    have h' : hasSubL pre' ['I', 'N', 'C', 'L', 'U', 'D', 'E'] = false := by
      rw [hasSubL, Bool.or_eq_false_iff] at h
      exact h.2
    rw [List.cons_append, List.length_cons]
    rw [extractIncludeVarF]
    have hsw : startsWithL (c :: (pre' ++ ("INCLUDE_DIRS = /usr/local/include".data ++ post)))
        ['I', 'N', 'C', 'L', 'U', 'D', 'E'] = false := by
      have hca : c :: (pre' ++ ("INCLUDE_DIRS = /usr/local/include".data ++ post)) =
          (c :: pre') ++ (("INCLUDE_DIRS = /usr/local/include".data) ++ post) := rfl
      rw [hca]
      exact startsWith_cross_false (c :: pre') "INCLUDE_DIRS = /usr/local/include".data post
        ['I', 'N', 'C', 'L', 'U', 'D', 'E'] (by simp) (by decide) h (by decide)
    rw [if_neg (by rw [hsw]; exact Bool.false_ne_true)]
    exact ih post h' hpost

/-- Claim C8, counterexample: the corpus `-I -Iinclude/common` contains the
token `-Iinclude/common` (preceded by whitespace, at the end), yet
`include/common` is not in the report — the first `-I`, via its greedy
`\s*([^\s]+)`, swallows the whole token and extracts `-Iinclude/common`
instead. -/
theorem include_dir_extraction_counterexample :
    containsStr "-I -Iinclude/common" "-Iinclude/common" = true ∧
      (analyzeContent "-I -Iinclude/common").include_directories = ["-Iinclude/common"] ∧
      ¬ ("include/common" ∈ (analyzeContent "-I -Iinclude/common").include_directories) := by
  refine ⟨?_, ?_, ?_⟩ <;> decide

/-- Claim C8, amended: the two memberships hold once no earlier occurrence
of the scanned flag/variable pattern can swallow the token — if the corpus
contains `-Iinclude/common` with no `-I` occurring before it and whitespace
or end after it, then `include/common` is extracted; if it contains
`INCLUDE_DIRS = /usr/local/include` with no `INCLUDE` occurring before it
and whitespace, `#`, or end after it, then `/usr/local/include` is
extracted. -/
theorem include_dir_extraction_amended :
    (∀ (content : String) (pre post : List Char),
        content.data = pre ++ ("-Iinclude/common".data ++ post) →
        hasSubL pre ['-', 'I'] = false →
        (post = [] ∨ ∃ d post2, post = d :: post2 ∧ pyWS d = true) →
        "include/common" ∈ (analyzeContent content).include_directories) ∧
      (∀ (content : String) (pre post : List Char),
        content.data = pre ++ ("INCLUDE_DIRS = /usr/local/include".data ++ post) →
        hasSubL pre ['I', 'N', 'C', 'L', 'U', 'D', 'E'] = false →
        (post = [] ∨ ∃ d post2, post = d :: post2 ∧ (pyWS d = true ∨ d = '#')) →
        "/usr/local/include" ∈ (analyzeContent content).include_directories) := by
  constructor
  · intro content pre post hdata h hpost
    show "include/common" ∈ extractDashI content.data ++ extractIncludeVar content.data
    apply List.mem_append_left
    rw [extractDashI, hdata]
    exact dashI_finds pre post h hpost
  · intro content pre post hdata h hpost
    show "/usr/local/include" ∈ extractDashI content.data ++ extractIncludeVar content.data
    apply List.mem_append_right
    rw [extractIncludeVar, hdata]
    exact includeVar_finds pre post h hpost

/-- Witness for the amended claim C8, on the two one-token corpora. -/
theorem include_dir_extraction_amended_witness :
    "include/common" ∈ (analyzeContent "-Iinclude/common").include_directories ∧
      "/usr/local/include" ∈
        (analyzeContent "INCLUDE_DIRS = /usr/local/include").include_directories :=
  ⟨include_dir_extraction_amended.1 "-Iinclude/common" [] [] (by decide) (by decide) (Or.inl rfl),
   include_dir_extraction_amended.2 "INCLUDE_DIRS = /usr/local/include" [] [] (by decide)
     (by decide) (Or.inl rfl)⟩
